import Mathlib

/-!
Verification development for the galdr multi-provider AI chat CLI.

This file gives a shallow embedding, in Lean 4, of the parts of the
source that the verified properties concern:

* the safe-split stream buffer (`src/chat/utils/messageSplitting.ts`);
* the conversation context manager — compaction, message append, and the
  in-place update of the last assistant message (`src/context/manager.ts`);
* the throttled-save logic of the context manager, modelled as an explicit
  event semantics in which the `setTimeout` callback is a timer-fire event;
* the session store (`src/context/session.ts`), with the filesystem write
  modelled as the produced session-file value;
* the DeepSeek streaming normalizer — text accumulation, tool-call delta
  reconstruction and the stream-error handling of `streamResponse`
  (`src/providers/deepseek.ts`).

JS strings are modelled as `List Char` (all inputs of interest are ASCII,
where JS UTF-16 code-unit indexing and character indexing agree).
Asynchronous delegation (the summarizer call, the SSE read loop) is
modelled by passing the outcome of the delegated step as an explicit
parameter, and `Date.now()` by an explicit time parameter.
-/

/-! ## Safe-split stream buffer (`src/chat/utils/messageSplitting.ts`) -/

/-- The backtick character U+0060. -/
def backtickChar : Char := Char.ofNat 96

/-- The three-character code fence delimiter used by `messageSplitting.ts`. -/
def fenceDelim : List Char := [backtickChar, backtickChar, backtickChar]

/-- JS `content.substring(i, i + 3) === '\x60\x60\x60'`: a fence delimiter starts at
position `i` of `content`. -/
def isFenceAt (content : List Char) (i : Nat) : Bool :=
  decide ((content.drop i).take 3 = fenceDelim)

/-- JS `content.substring(i, i + 2) === '\n\n'` style test: a double newline
starts at position `i` of `content`. -/
def isDnlAt (content : List Char) (i : Nat) : Bool :=
  decide ((content.drop i).take 2 = [Char.ofNat 10, Char.ofNat 10])

/-- The backward `for` loop of `findEnclosingCodeBlockStart` (lines 58-71 of
`messageSplitting.ts`): scan `i` downward from `index` to `0`; at each fence
occurrence increment `backtickCount`; on the first occurrence `continue`, on
the second set `codeBlockStart := i` and `break`.  Returns the final
`(backtickCount, codeBlockStart)` pair, with `codeBlockStart = -1` when the
loop never reached its `break`. -/
def febLoop (content : List Char) : Nat → Nat → Nat × Int
  | 0, count =>
    if isFenceAt content 0 then
      if count + 1 = 1 then (1, -1) else (count + 1, (0 : Int))
    else (count, -1)
  | i + 1, count =>
    if isFenceAt content (i + 1) then
      if count + 1 = 1 then febLoop content i 1
      else (count + 1, ((i + 1 : Nat) : Int))
    else febLoop content i count

/-- Embedding of `findEnclosingCodeBlockStart(content, index)`
(`messageSplitting.ts` lines 51-79): run the backward scan, then return
`codeBlockStart` when `backtickCount % 2 === 1`, and `-1` otherwise. -/
def findEnclosingCodeBlockStart (content : List Char) (index : Nat) : Int :=
  let r := febLoop content index 0
  if r.1 % 2 = 1 then r.2 else -1

/-- JS `content.indexOf('\x60\x60\x60', pos)`: the least start position `j ≥ pos`
at which a fence delimiter occurs, `none` when there is no such occurrence. -/
def indexOfFenceFrom (content : List Char) (pos : Nat) : Option Nat :=
  (List.range content.length).find? (fun j => decide (pos ≤ j) && isFenceAt content j)

/-- The `while` loop of `isIndexInsideCodeBlock` (`messageSplitting.ts` lines
87-93): starting from `pos` with accumulator `count`, repeatedly find the next
fence occurrence before `index` and skip past it, counting occurrences. -/
def iibLoop (content : List Char) (index : Nat) (pos : Nat) (count : Nat) : Nat :=
  if pos < index then
    match hf : indexOfFenceFrom content pos with
    | none => count
    | some next =>
      if index ≤ next then count
      else iibLoop content index (next + 3) (count + 1)
  else count
termination_by index - pos
decreasing_by
  have hnext : pos ≤ next := by
    have hp := List.find?_some hf
    simp only [Bool.and_eq_true, decide_eq_true_eq] at hp
    exact hp.1
  omega

/-- Embedding of `isIndexInsideCodeBlock(content, index)` (`messageSplitting.ts`
lines 84-96): count the non-overlapping fence occurrences starting before
`index`; an odd count means the index is inside a code block. -/
def isIndexInsideCodeBlock (content : List Char) (index : Nat) : Bool :=
  iibLoop content index 0 0 % 2 == 1

/-- JS `content.lastIndexOf('\n\n', fromIndex)`: the greatest start position
`j ≤ fromIndex` at which a double newline occurs, `none` when there is none. -/
def lastIndexOfDnlFrom (content : List Char) (fromIndex : Nat) : Option Nat :=
  ((List.range (fromIndex + 1)).reverse).find? (fun j => isDnlAt content j)

/-- The `while` loop of step 2 of `findLastSafeSplitPoint`
(`messageSplitting.ts` lines 118-128): look for the last double newline at or
before `searchStartIndex`; if the point just after it is not inside a code
block return that point, otherwise resume the search just before the double
newline; when the search is exhausted return `content.length` (step 3). -/
def flsLoop (content : List Char) (searchStartIndex : Nat) : Nat :=
  match hd : lastIndexOfDnlFrom content searchStartIndex with
  | none => content.length
  | some dnlIndex =>
    if isIndexInsideCodeBlock content (dnlIndex + 2) = false then dnlIndex + 2
    else
      match dnlIndex with
      | 0 => content.length
      | d + 1 => flsLoop content d
termination_by searchStartIndex
decreasing_by
  have hmem := List.mem_of_find?_eq_some hd
  simp only [List.mem_reverse, List.mem_range] at hmem
  omega

/-- Embedding of `findLastSafeSplitPoint(content)` (`messageSplitting.ts`
lines 107-132): `0` for empty content; the enclosing code-block start if the
end of the content is reported to lie inside one; otherwise the double-newline
search, falling back to `content.length`. -/
def findLastSafeSplitPoint (content : List Char) : Int :=
  if content.length = 0 then 0
  else
    let enclosingBlockStart := findEnclosingCodeBlockStart content content.length
    if enclosingBlockStart ≠ -1 then enclosingBlockStart
    else ((flsLoop content (content.length - 1) : Nat) : Int)

/-- The list of start positions of the non-overlapping fence occurrences of
`content`, scanning from `pos` and skipping 3 characters past each occurrence
— the same scan that `isIndexInsideCodeBlock` counts. -/
def fenceList (content : List Char) (pos : Nat) : List Nat :=
  match hf : indexOfFenceFrom content pos with
  | none => []
  | some j => j :: fenceList content (j + 3)
termination_by content.length - pos
decreasing_by
  have hp := List.find?_some hf
  simp only [Bool.and_eq_true, decide_eq_true_eq] at hp
  have hmem := List.mem_of_find?_eq_some hf
  simp only [List.mem_range] at hmem
  omega

/-- Pair up a list of fence positions: the first with the second (an open
fence with its matching close), the third with the fourth, and so on. -/
def chunkPairs : List Nat → List (Nat × Nat)
  | a :: b :: rest => (a, b) :: chunkPairs rest
  | _ => []

/-! ## Data model (`src/types/index.ts`) -/

/-- The five configured backends. -/
inductive Provider
  | claude
  | gemini
  | copilot
  | deepseek
  | cursor
deriving DecidableEq, Repr

/-- The provider switch mode. -/
inductive SwitchMode
  | manual
  | rollover
  | roundRobin
deriving DecidableEq, Repr

/-- A message role. -/
inductive Role
  | user
  | assistant
deriving DecidableEq, Repr

/-- A conversation message (`Message` of `src/types/index.ts`).  The optional
display-only fields `tools` and `streamItems` are never read or written by the
operations modelled here and are omitted. -/
structure Message where
  role : Role
  content : String
  timestamp : Int
  provider : Option Provider
deriving DecidableEq, Repr

/-- A conversation context (`ConversationContext` of `src/types/index.ts`),
with the optional per-provider model record modelled as a total map. -/
structure ConversationContext where
  messages : List Message
  currentProvider : Provider
  switchMode : SwitchMode
  providerModels : Provider → String

/-! ## Context manager (`src/context/manager.ts`) -/

/-- JS `arr.slice(-k)` for a nonnegative `k`.  Note the JS quirk at `k = 0`:
`-0` is `0`, so `arr.slice(-0)` is a copy of the whole array, while for
`k ≥ 1` the result is the suffix of the last `min k arr.length` elements. -/
def jsSliceLast (l : List Message) (k : Nat) : List Message :=
  if k = 0 then l else l.drop (l.length - k)

/-- JS `arr.slice(0, -k)` for a nonnegative `k`.  At `k = 0` the end index
`-0` is `0` and the result is empty; for `k ≥ 1` the result drops the last
`min k arr.length` elements. -/
def jsSliceInit (l : List Message) (k : Nat) : List Message :=
  if k = 0 then [] else l.take (l.length - k)

/-- The result record of `ContextManager.compact`. -/
structure CompactOutcome where
  compacted : Bool
  removed : Nat
  error : Option String
deriving DecidableEq, Repr

/-- Embedding of `ContextManager.compact(keepLast)` (`manager.ts` lines
178-206) acting on the message list.  The awaited
`this.summarizer.summarize(oldMessages)` is modelled by the `summaryResult`
parameter: `Except.ok` for a resolved summary string, `Except.error` for a
thrown error (whose message the `catch` branch reports); `Date.now()` for the
summary message is the `now` parameter.  Returns the new message list and the
result record. -/
def compact (messages : List Message) (keepLast : Nat)
    (summaryResult : Except String String) (now : Int) :
    List Message × CompactOutcome :=
  if messages.length > keepLast then
    let recentMessages := jsSliceLast messages keepLast
    let oldMessages := jsSliceInit messages keepLast
    match summaryResult with
    | Except.ok summaryContent =>
      let summary : Message :=
        { role := Role.assistant, content := summaryContent, timestamp := now, provider := none }
      (summary :: recentMessages,
       { compacted := true, removed := oldMessages.length, error := none })
    | Except.error errorMessage =>
      (messages, { compacted := false, removed := 0, error := some errorMessage })
  else
    (messages, { compacted := false, removed := 0, error := none })

/-- Auto-compact when the message count exceeds this (`manager.ts` line 10). -/
def AUTO_COMPACT_THRESHOLD : Nat := 50

/-- Number of recent messages kept by auto-compaction (`manager.ts` line 11). -/
def AUTO_COMPACT_KEEP : Nat := 20

/-- The result record of `ContextManager.addMessage`. -/
structure AddOutcome where
  autoCompacted : Bool
  removed : Nat
  error : Option String
deriving DecidableEq, Repr

/-- Embedding of `ContextManager.addMessage(role, content, provider)`
(`manager.ts` lines 108-124) acting on the message list: push the new message,
then auto-compact with `AUTO_COMPACT_KEEP` when enabled and the threshold is
exceeded.  `now` models `Date.now()` at the push; `summaryResult` and
`summaryNow` are passed through to `compact`. -/
def addMessage (messages : List Message) (autoCompactEnabled : Bool)
    (role : Role) (content : String) (now : Int) (provider : Option Provider)
    (summaryResult : Except String String) (summaryNow : Int) :
    List Message × AddOutcome :=
  let messages1 :=
    messages ++ [{ role := role, content := content, timestamp := now, provider := provider }]
  if autoCompactEnabled && decide (messages1.length > AUTO_COMPACT_THRESHOLD) then
    let result := compact messages1 AUTO_COMPACT_KEEP summaryResult summaryNow
    (result.1,
     { autoCompacted := result.2.compacted, removed := result.2.removed, error := result.2.error })
  else
    (messages1, { autoCompacted := false, removed := 0, error := none })

/-- Appending a list of messages one at a time through `addMessage` with
auto-compaction enabled, each message carrying its own role, content,
timestamp and provider; every summarizer delegation resolves to
`summaryResult` with timestamp `summaryNow`. -/
def addMessagesSeq (messages : List Message) (inputs : List Message)
    (summaryResult : Except String String) (summaryNow : Int) : List Message :=
  inputs.foldl
    (fun acc m =>
      (addMessage acc true m.role m.content m.timestamp m.provider summaryResult summaryNow).1)
    messages

/-- Embedding of `ContextManager.updateLastAssistantMessage(content, provider)`
(`manager.ts` lines 127-142): when the list is nonempty and its last message
has role assistant and (when a provider is given) a matching provider, replace
the content of that last message in place and return `true`; otherwise leave
the list unchanged and return `false`. -/
def updateLastAssistantMessage (messages : List Message) (content : String)
    (provider : Option Provider) : List Message × Bool :=
  if messages.length = 0 then (messages, false)
  else
    match messages.getLast? with
    | none => (messages, false)
    | some lastMessage =>
      if lastMessage.role = Role.assistant ∧ (provider = none ∨ lastMessage.provider = provider) then
        (messages.dropLast ++ [{ lastMessage with content := content }], true)
      else (messages, false)

/-! ## Throttled persistence (`src/context/manager.ts` lines 83-106)

The `throttledSave` method and its `setTimeout` callback are modelled as a
state machine over an abstract in-memory context type `σ`.  A `request` event
at time `now` models a mutation of the in-memory context followed by a call of
`throttledSave()`; a `timerFire` event models the scheduled `setTimeout`
callback running at its due time.  `persisted` models the last value written
by `save()`, `writes` counts physical writes, and `deferredWrites` counts the
writes performed by the timer callback. -/

/-- The throttling state of a `ContextManager`. -/
structure ThrottleState (σ : Type) where
  lastSaveTime : Int
  pendingSave : Bool
  timerAt : Option Int
  current : σ
  persisted : σ
  writes : Nat
  deferredWrites : Nat
deriving DecidableEq, Repr

/-- Milliseconds between physical writes (`manager.ts` line 21). -/
def saveThrottleMs : Int := 500

/-- Embedding of `ContextManager.throttledSave()` (`manager.ts` lines 83-106)
called at time `now`: save immediately when the throttle interval has elapsed;
otherwise, when no save is pending, mark one pending and schedule the timer
for `now + (saveThrottleMs - (now - lastSaveTime))`; when a save is already
pending, do nothing. -/
def throttledSave {σ : Type} (s : ThrottleState σ) (now : Int) : ThrottleState σ :=
  if now - s.lastSaveTime ≥ saveThrottleMs then
    { s with persisted := s.current, writes := s.writes + 1,
             lastSaveTime := now, pendingSave := false }
  else if s.pendingSave = false then
    { s with pendingSave := true,
             timerAt := some (now + (saveThrottleMs - (now - s.lastSaveTime))) }
  else s

/-- Embedding of the `setTimeout` callback of `throttledSave` (`manager.ts`
lines 98-104) running at time `now`: when a save is still pending, perform the
deferred write of the current context and clear the pending flag. -/
def throttleTimerFire {σ : Type} (s : ThrottleState σ) (now : Int) : ThrottleState σ :=
  if s.pendingSave then
    { s with persisted := s.current, writes := s.writes + 1,
             deferredWrites := s.deferredWrites + 1,
             lastSaveTime := now, pendingSave := false, timerAt := none }
  else { s with timerAt := none }

/-- An event of the throttling state machine. -/
inductive ThrottleEvent (σ : Type)
  | request (now : Int) (newContext : σ)
  | timerFire (now : Int)

/-- One step of the throttling state machine: a `request` stores the mutated
context and calls `throttledSave`; a `timerFire` runs the timer callback. -/
def stepThrottle {σ : Type} (s : ThrottleState σ) : ThrottleEvent σ → ThrottleState σ
  | ThrottleEvent.request now newContext => throttledSave { s with current := newContext } now
  | ThrottleEvent.timerFire now => throttleTimerFire s now

/-- Run the throttling state machine over a list of events. -/
def runThrottle {σ : Type} (s : ThrottleState σ) (events : List (ThrottleEvent σ)) :
    ThrottleState σ :=
  events.foldl stepThrottle s

/-- The throttling state of a freshly constructed manager whose last physical
write happened at time `lastSave`, with in-memory context `c0` and persisted
context `p0`. -/
def initialThrottleState (σ : Type) (lastSave : Int) (c0 p0 : σ) : ThrottleState σ :=
  { lastSaveTime := lastSave, pendingSave := false, timerAt := none,
    current := c0, persisted := p0, writes := 0, deferredWrites := 0 }

/-! ## Session store (`src/context/session.ts`) -/

/-- Metadata of one session (`SessionMetadata` of `session.ts`). -/
structure SessionMetadata where
  name : String
  created : Int
  lastAccessed : Int
  messageCount : Nat
  description : Option String
deriving DecidableEq, Repr

/-- The session index (`SessionIndex` of `session.ts`), with the
`Record<string, SessionMetadata>` modelled as a partial map. -/
structure SessionIndex where
  currentSession : String
  sessions : String → Option SessionMetadata

/-- The content of one persisted session file (`SessionData` of `session.ts`):
the conversation context spread together with its metadata. -/
structure SessionData where
  context : ConversationContext
  metadata : SessionMetadata

/-- Embedding of `SessionManager.saveSession(sessionName, context,
description)` (`session.ts` lines 369-398): create the metadata entry when the
session is new, otherwise update `lastAccessed`, `messageCount` and (when
given) `description`; then produce the session-file value and the updated
index.  `now` models `Date.now()`; the two `fs.writeFileSync` calls are
modelled by returning the written `SessionData` together with the new index. -/
def saveSession (index : SessionIndex) (sessionName : String)
    (context : ConversationContext) (description : Option String) (now : Int) :
    SessionIndex × SessionData :=
  let meta : SessionMetadata :=
    match index.sessions sessionName with
    | none =>
      { name := sessionName, created := now, lastAccessed := now,
        messageCount := context.messages.length, description := description }
    | some m =>
      { m with lastAccessed := now, messageCount := context.messages.length,
               description := match description with
                              | some d => some d
                              | none => m.description }
  let newIndex : SessionIndex :=
    { index with sessions := fun n => if n = sessionName then some meta else index.sessions n }
  (newIndex, { context := context, metadata := meta })

/-! ## DeepSeek streaming normalizer (`src/providers/deepseek.ts`) -/

/-- One tool-call delta of a parsed SSE chunk, with the nested
`function?.name` and `function?.arguments` fields flattened.  Absent fields
are `none`. -/
structure ToolCallDelta where
  index : Int
  id : Option String
  fnName : Option String
  fnArguments : Option String
deriving DecidableEq, Repr

/-- One successfully parsed `data:` chunk of the SSE stream, reduced to the
three fields `streamResponse` reads: `choices[0]?.delta?.content`,
`choices[0]?.delta?.tool_calls` (an absent array is modelled as `[]`, which
the guard `toolCallDeltas && toolCallDeltas.length > 0` treats identically)
and `choices[0]?.finish_reason`. -/
structure ParsedChunk where
  content : Option String
  toolCallDeltas : List ToolCallDelta
  finishReason : Option String
deriving DecidableEq, Repr

/-- The `currentToolCall` accumulator record of `streamResponse`. -/
structure PendingToolCall where
  id : Option String
  name : Option String
  arguments : String
deriving DecidableEq, Repr

/-- One fully reconstructed tool call, as pushed onto `toolCalls`. -/
structure ReconstructedToolCall where
  id : String
  name : String
  arguments : String
deriving DecidableEq, Repr

/-- The mutable state of the `streamResponse` read loop (`deepseek.ts` lines
854-860), without the raw line buffer: the parsed-chunk level of the model
sits above the `TextDecoder`/line-splitting/`JSON.parse` plumbing. -/
structure StreamLoopState where
  fullResponse : String
  toolCalls : List ReconstructedToolCall
  currentToolCall : Option PendingToolCall
  currentToolIndex : Int
deriving DecidableEq, Repr

/-- JS truthiness of an optional string field: `undefined` and the empty
string are falsy. -/
def jsTruthy : Option String → Bool
  | none => false
  | some s => !(s == "")

/-- The duplicated push of `streamResponse` (`deepseek.ts` lines 901-907 and
930-936): `if (currentToolCall && currentToolCall.id && currentToolCall.name)`
push the accumulated record onto `toolCalls`. -/
def savePendingToolCall (s : StreamLoopState) : StreamLoopState :=
  match s.currentToolCall with
  | none => s
  | some c =>
    if jsTruthy c.id && jsTruthy c.name then
      { s with toolCalls :=
          s.toolCalls ++ [{ id := c.id.getD "", name := c.name.getD "", arguments := c.arguments }] }
    else s

/-- The continue-existing-tool-call update (`deepseek.ts` lines 917-924):
overwrite `id` and `name` when truthy delta fields arrive, and append a truthy
argument fragment. -/
def updatePendingToolCall (c : PendingToolCall) (d : ToolCallDelta) : PendingToolCall :=
  let c1 := if jsTruthy d.id then { c with id := d.id } else c
  let c2 := if jsTruthy d.fnName then { c1 with name := d.fnName } else c1
  if jsTruthy d.fnArguments then
    { c2 with arguments := c2.arguments ++ d.fnArguments.getD "" }
  else c2

/-- Embedding of the per-delta body of the tool-call loop (`deepseek.ts` lines
895-926): on an index change, save the previous accumulated call and start a
new one (`arguments` from `function?.arguments || ''`); on the same index,
update the current accumulated call. -/
def processToolCallDelta (s : StreamLoopState) (d : ToolCallDelta) : StreamLoopState :=
  if d.index ≠ s.currentToolIndex then
    let s1 := savePendingToolCall s
    { s1 with currentToolIndex := d.index,
              currentToolCall :=
                some { id := d.id, name := d.fnName, arguments := d.fnArguments.getD "" } }
  else
    match s.currentToolCall with
    | none => s
    | some c => { s with currentToolCall := some (updatePendingToolCall c d) }

/-- Embedding of the handling of one parsed chunk (`deepseek.ts` lines
879-936): append truthy content to `fullResponse`, process the tool-call
deltas when present, and on `finish_reason === 'tool_calls'` save the last
accumulated call. -/
def processParsedChunk (s : StreamLoopState) (chunk : ParsedChunk) : StreamLoopState :=
  let s1 :=
    if jsTruthy chunk.content then
      { s with fullResponse := s.fullResponse ++ chunk.content.getD "" }
    else s
  let s2 :=
    if chunk.toolCallDeltas.length > 0 then chunk.toolCallDeltas.foldl processToolCallDelta s1
    else s1
  if chunk.finishReason = some "tool_calls" then savePendingToolCall s2 else s2

/-- The loop state at entry of the read loop (`deepseek.ts` lines 854-860). -/
def initialStreamLoopState : StreamLoopState :=
  { fullResponse := "", toolCalls := [], currentToolCall := none, currentToolIndex := -1 }

/-- Run the read loop of `streamResponse` over a list of parsed chunks. -/
def runStreamLoop (chunks : List ParsedChunk) : StreamLoopState :=
  chunks.foldl processParsedChunk initialStreamLoopState

/-- The terminal outcome record of one provider execution
(`ProviderResult` of `src/types/index.ts`). -/
structure ProviderResult where
  success : Bool
  response : Option String
  error : Option String
  tokenLimitReached : Bool
deriving DecidableEq, Repr

/-- How the SSE read loop ends: normal completion of the stream, an
`AbortError` thrown by `reader.read()`, or any other error thrown mid-stream
carrying the given message. -/
inductive StreamEnding
  | done
  | abortError
  | readError (message : String)
deriving DecidableEq, Repr

/-- Substring test on character lists: some suffix of `l` starts with `pat`. -/
def listHasSub (pat : List Char) : List Char → Bool
  | [] => decide (List.take pat.length ([] : List Char) = pat)
  | c :: rest => decide (List.take pat.length (c :: rest) = pat) || listHasSub pat rest

/-- JS `message.includes(pat)`. -/
def strHasSub (message pat : String) : Bool :=
  listHasSub pat.toList message.toList

/-- The stream-termination test of the `catch` handler (`deepseek.ts` lines
956-961): the error message includes one of `terminated`, `aborted`, `closed`
or `network`. -/
def isTerminationMessage (message : String) : Bool :=
  strHasSub message "terminated" || strHasSub message "aborted" ||
  strHasSub message "closed" || strHasSub message "network"

/-- The outcome of one pass of `streamResponse`: either a terminal
`ProviderResult`, or — when the stream completed with accumulated tool calls —
the recursive re-invocation with tool results appended (`deepseek.ts` lines
1013-1056), carried here with the accumulated calls and text. -/
inductive StreamResult
  | result (r : ProviderResult)
  | continueWithToolResults (toolCalls : List ReconstructedToolCall) (fullResponse : String)
deriving DecidableEq, Repr

/-- Embedding of one pass of `DeepSeekProvider.streamResponse` over an SSE
stream that delivers `chunks` and then ends as `ending` (`deepseek.ts` lines
862-1087): on normal completion, execute tools and recurse when calls were
accumulated, otherwise succeed with the accumulated text; on `AbortError`,
resolve `Operation cancelled`; on another read error, resolve a successful
partial result when the message matches the termination signatures and text
was accumulated, a termination failure when no text was accumulated, and
otherwise rethrow into the outer `catch`, which resolves a request failure. -/
def streamResponseStep (chunks : List ParsedChunk) (ending : StreamEnding) : StreamResult :=
  let s := runStreamLoop chunks
  match ending with
  | StreamEnding.done =>
    if s.toolCalls.length > 0 then
      StreamResult.continueWithToolResults s.toolCalls s.fullResponse
    else
      StreamResult.result
        { success := true, response := some s.fullResponse, error := none,
          tokenLimitReached := false }
  | StreamEnding.abortError =>
    StreamResult.result
      { success := false, response := none, error := some "Operation cancelled",
        tokenLimitReached := false }
  | StreamEnding.readError message =>
    if isTerminationMessage message then
      if s.fullResponse.length > 0 then
        StreamResult.result
          { success := true, response := some s.fullResponse, error := none,
            tokenLimitReached := false }
      else
        StreamResult.result
          { success := false, response := none,
            error := some ("DeepSeek API connection terminated: " ++ message ++
                           ". See detailed error output above."),
            tokenLimitReached := false }
    else
      StreamResult.result
        { success := false, response := none,
          error := some ("DeepSeek API request failed: " ++ message),
          tokenLimitReached := false }

/-- The id carried by a sequence of same-index deltas: the id of the first
delta, overwritten by each later truthy id. -/
def accId : List ToolCallDelta → Option String
  | [] => none
  | d :: rest => rest.foldl (fun acc d2 => if jsTruthy d2.id then d2.id else acc) d.id

/-- The name carried by a sequence of same-index deltas: the name of the
first delta, overwritten by each later truthy name. -/
def accName : List ToolCallDelta → Option String
  | [] => none
  | d :: rest => rest.foldl (fun acc d2 => if jsTruthy d2.fnName then d2.fnName else acc) d.fnName

/-- The concatenation, in arrival order, of the argument fragments of a
sequence of deltas (an absent fragment contributes the empty string). -/
def accArgs : List ToolCallDelta → String
  | [] => ""
  | d :: rest => d.fnArguments.getD "" ++ accArgs rest

/-- The failing input for the open-fence split rule: a double newline, one
more character, then an unterminated code fence. -/
def csSplitBug : List Char := "a\n\nb```x".toList

/-- A buffer with one matched fence pair after a double newline. -/
def csFencePair : List Char := "x\n\n```a```".toList

/-- A concrete user message. -/
def msgU : Message := { role := Role.user, content := "hi", timestamp := 0, provider := none }

/-- A second concrete user message. -/
def msgU2 : Message := { role := Role.user, content := "again", timestamp := 1, provider := none }

/-- Fifty-one concrete user messages with distinct timestamps. -/
def inputs51 : List Message :=
  (List.range 51).map
    (fun i => { role := Role.user, content := "m", timestamp := (i : Int), provider := none })

/-- A concrete assistant message. -/
def msgA : Message := { role := Role.assistant, content := "old", timestamp := 0, provider := none }

/-- A stream that produced the text `Hello` before disconnecting. -/
def chunksHello : List ParsedChunk :=
  [{ content := some "Hello", toolCallDeltas := [], finishReason := none }]

/-- The first tool-call delta of the C7 witness: index 0, id, name and the
fragment `{"a":`. -/
def deltaA : ToolCallDelta :=
  { index := 0, id := some "call_1", fnName := some "get", fnArguments := some "\x7b\"a\":" }

/-- The second tool-call delta of the C7 witness: index 0 and the fragment
`1}` only. -/
def deltaB : ToolCallDelta :=
  { index := 0, id := none, fnName := none, fnArguments := some "1\x7d" }

/-- The C7 witness grouping: the two fragments arrive in separate chunks. -/
def groupsAB : List (List ToolCallDelta) := [[deltaA], [deltaB]]

/-! ## Step equations for the loop embeddings -/

theorem iibLoop_not_lt (c : List Char) (index pos count : Nat) (h : ¬ pos < index) :
    iibLoop c index pos count = count := by
  rw [iibLoop.eq_def]
  simp [h]

theorem iibLoop_none (c : List Char) (index pos count : Nat)
    (h : indexOfFenceFrom c pos = none) :
    iibLoop c index pos count = count := by
  rw [iibLoop.eq_def]
  split
  · split
    · rfl
    · rename_i next heq
      rw [h] at heq
      exact absurd heq (by simp)
  · rfl

theorem iibLoop_stop (c : List Char) (index pos count next : Nat)
    (h : indexOfFenceFrom c pos = some next) (h2 : index ≤ next) :
    iibLoop c index pos count = count := by
  rw [iibLoop.eq_def]
  split
  · split
    · rfl
    · rename_i next2 heq
      rw [h] at heq
      obtain rfl : next = next2 := by injection heq
      simp [h2]
  · rfl

theorem iibLoop_step (c : List Char) (index pos count next : Nat)
    (h : indexOfFenceFrom c pos = some next) (h2 : next < index) (h3 : pos < index) :
    iibLoop c index pos count = iibLoop c index (next + 3) (count + 1) := by
  rw [iibLoop.eq_def]
  split
  · split
    · rename_i heq
      rw [h] at heq
      exact absurd heq (by simp)
    · rename_i next2 heq
      rw [h] at heq
      obtain rfl : next = next2 := by injection heq
      simp [Nat.not_le.mpr h2]
  · rename_i hcon
    exact absurd h3 hcon

theorem fenceList_none (c : List Char) (pos : Nat) (h : indexOfFenceFrom c pos = none) :
    fenceList c pos = [] := by
  rw [fenceList.eq_def]
  split
  · rfl
  · rename_i j heq
    simp [h] at heq

theorem fenceList_some (c : List Char) (pos j : Nat) (h : indexOfFenceFrom c pos = some j) :
    fenceList c pos = j :: fenceList c (j + 3) := by
  rw [fenceList.eq_def]
  split
  · rename_i heq
    simp [h] at heq
  · rename_i j2 heq
    rw [h] at heq
    obtain rfl : j = j2 := by injection heq
    rfl

theorem flsLoop_none (c : List Char) (ss : Nat) (h : lastIndexOfDnlFrom c ss = none) :
    flsLoop c ss = c.length := by
  rw [flsLoop.eq_def]
  split
  · rfl
  · rename_i d heq
    simp [h] at heq

theorem flsLoop_found (c : List Char) (ss d : Nat)
    (h : lastIndexOfDnlFrom c ss = some d)
    (h2 : isIndexInsideCodeBlock c (d + 2) = false) :
    flsLoop c ss = d + 2 := by
  rw [flsLoop.eq_def]
  split
  · rename_i heq
    simp [h] at heq
  · rename_i d2 heq
    rw [h] at heq
    obtain rfl : d = d2 := by injection heq
    simp [h2]

theorem flsLoop_zero (c : List Char) (ss : Nat)
    (h : lastIndexOfDnlFrom c ss = some 0)
    (h2 : isIndexInsideCodeBlock c 2 = true) :
    flsLoop c ss = c.length := by
  rw [flsLoop.eq_def]
  split
  · rename_i heq
    simp [h] at heq
  · rename_i d2 heq
    rw [h] at heq
    obtain rfl : (0 : Nat) = d2 := by injection heq
    simp [h2]

theorem flsLoop_next (c : List Char) (ss d : Nat)
    (h : lastIndexOfDnlFrom c ss = some (d + 1))
    (h2 : isIndexInsideCodeBlock c (d + 1 + 2) = true) :
    flsLoop c ss = flsLoop c d := by
  rw [flsLoop.eq_def]
  split
  · rename_i heq
    simp [h] at heq
  · rename_i d2 heq
    rw [h] at heq
    obtain rfl : d + 1 = d2 := by injection heq
    simp [h2]

/-! ## The backward fence scan never finds an enclosing block -/

theorem febLoop_snd_eq_neg_one (c : List Char) :
    ∀ (i count : Nat), count ≤ 1 → (febLoop c i count).1 % 2 = 1 →
      (febLoop c i count).2 = -1 := by
  intro i
  induction i with
  | zero =>
    intro count hle hodd
    by_cases hf : isFenceAt c 0
    · by_cases hc : count + 1 = 1
      · simp [febLoop, hf, hc]
      · have hcount : count = 1 := by omega
        subst hcount
        simp [febLoop, hf] at hodd
    · simp [febLoop, hf] at hodd ⊢
  | succ n ih =>
    intro count hle hodd
    by_cases hf : isFenceAt c (n + 1)
    · by_cases hc : count + 1 = 1
      · have hcount : count = 0 := by omega
        subst hcount
        simp only [febLoop, hf, if_true] at hodd ⊢
        exact ih 1 (by omega) hodd
      · have hcount : count = 1 := by omega
        subst hcount
        simp [febLoop, hf] at hodd
    · simp only [febLoop, hf, if_false, Bool.false_eq_true] at hodd ⊢
      exact ih count hle hodd

/-- The helper `findEnclosingCodeBlockStart` of `messageSplitting.ts` returns
`-1` on every input: `codeBlockStart` is assigned only when the scan has seen
two fence occurrences, but the result is returned only when the count is odd,
which forces a count of one — and then `codeBlockStart` still holds `-1`. -/
theorem findEnclosingCodeBlockStart_eq_neg_one (c : List Char) (index : Nat) :
    findEnclosingCodeBlockStart c index = -1 := by
  unfold findEnclosingCodeBlockStart
  by_cases h : (febLoop c index 0).1 % 2 = 1
  · simpa [h] using febLoop_snd_eq_neg_one c index 0 (by omega) h
  · simp [h]

/-! ## Facts about the fence occurrence scan -/

theorem indexOfFenceFrom_facts (c : List Char) (pos j : Nat)
    (h : indexOfFenceFrom c pos = some j) :
    pos ≤ j ∧ isFenceAt c j = true := by
  have hp := List.find?_some h
  simp only [Bool.and_eq_true, decide_eq_true_eq] at hp
  exact hp

theorem isFenceAt_bound (c : List Char) (j : Nat) (h : isFenceAt c j = true) :
    j + 3 ≤ c.length := by
  simp only [isFenceAt, decide_eq_true_eq] at h
  have hlen : ((c.drop j).take 3).length = 3 := by rw [h]; rfl
  simp only [List.length_take, List.length_drop] at hlen
  omega

theorem isDnlAt_bound (c : List Char) (j : Nat) (h : isDnlAt c j = true) :
    j + 2 ≤ c.length := by
  simp only [isDnlAt, decide_eq_true_eq] at h
  have hlen : ((c.drop j).take 2).length = 2 := by rw [h]; rfl
  simp only [List.length_take, List.length_drop] at hlen
  omega

theorem lastIndexOfDnlFrom_isDnl (c : List Char) (ss d : Nat)
    (h : lastIndexOfDnlFrom c ss = some d) : isDnlAt c d = true :=
  List.find?_some h

theorem fenceList_ge (c : List Char) (pos : Nat) : ∀ j ∈ fenceList c pos, pos ≤ j := by
  refine fenceList.induct c (fun pos => ∀ j ∈ fenceList c pos, pos ≤ j) ?_ ?_ pos
  · intro pos hf
    rw [fenceList_none c pos hf]
    simp
  · intro pos j hf ih
    rw [fenceList_some c pos j hf]
    intro x hx
    have hp := (indexOfFenceFrom_facts c pos j hf).1
    rcases List.mem_cons.mp hx with rfl | hx2
    · exact hp
    · have := ih x hx2
      omega

theorem fenceList_bound (c : List Char) (pos : Nat) :
    ∀ j ∈ fenceList c pos, j + 3 ≤ c.length := by
  refine fenceList.induct c (fun pos => ∀ j ∈ fenceList c pos, j + 3 ≤ c.length) ?_ ?_ pos
  · intro pos hf
    rw [fenceList_none c pos hf]
    simp
  · intro pos j hf ih
    rw [fenceList_some c pos j hf]
    intro x hx
    rcases List.mem_cons.mp hx with rfl | hx2
    · exact isFenceAt_bound c x (indexOfFenceFrom_facts c pos x hf).2
    · exact ih x hx2

theorem fenceList_pairwise (c : List Char) (pos : Nat) :
    List.Pairwise (fun a b => a + 3 ≤ b) (fenceList c pos) := by
  refine fenceList.induct c (fun pos => List.Pairwise (fun a b => a + 3 ≤ b) (fenceList c pos))
    ?_ ?_ pos
  · intro pos hf
    rw [fenceList_none c pos hf]
    exact List.Pairwise.nil
  · intro pos j hf ih
    rw [fenceList_some c pos j hf]
    refine List.pairwise_cons.mpr ⟨?_, ih⟩
    intro x hx
    exact fenceList_ge c (j + 3) x hx

/-! ## The inside-a-code-block test counts fence occurrences -/

theorem iibLoop_eq_countP (c : List Char) (index : Nat) :
    ∀ pos count, iibLoop c index pos count =
      count + (fenceList c pos).countP (fun j => decide (j < index)) := by
  intro pos
  refine fenceList.induct c
    (fun pos => ∀ count, iibLoop c index pos count =
      count + (fenceList c pos).countP (fun j => decide (j < index))) ?_ ?_ pos
  · intro pos hf count
    rw [fenceList_none c pos hf]
    by_cases hpi : pos < index
    · rw [iibLoop_none c index pos count hf]
      rfl
    · rw [iibLoop_not_lt c index pos count hpi]
      rfl
  · intro pos j hf ih count
    rw [fenceList_some c pos j hf]
    have hfacts := indexOfFenceFrom_facts c pos j hf
    by_cases hpi : pos < index
    · by_cases hij : index ≤ j
      · rw [iibLoop_stop c index pos count j hf hij]
        have h1 : ¬ j < index := by omega
        have h0 : (fenceList c (j + 3)).countP (fun k => decide (k < index)) = 0 := by
          rw [List.countP_eq_zero]
          intro x hx
          have := fenceList_ge c (j + 3) x hx
          simp only [decide_eq_true_eq]
          omega
        simp [List.countP_cons, h1, h0]
      · have hj : j < index := by omega
        rw [iibLoop_step c index pos count j hf hj hpi, ih (count + 1)]
        simp [List.countP_cons, hj]
        omega
    · rw [iibLoop_not_lt c index pos count hpi]
      have h0 : ((j :: fenceList c (j + 3)).countP (fun k => decide (k < index))) = 0 := by
        rw [List.countP_eq_zero]
        intro x hx
        rcases List.mem_cons.mp hx with rfl | hx2
        · simp only [decide_eq_true_eq]
          omega
        · have := fenceList_ge c (j + 3) x hx2
          have := hfacts.1
          simp only [decide_eq_true_eq]
          omega
      rw [h0]
      omega

theorem isIndexInsideCodeBlock_iff (c : List Char) (n : Nat) :
    isIndexInsideCodeBlock c n = true ↔
      (fenceList c 0).countP (fun j => decide (j < n)) % 2 = 1 := by
  unfold isIndexInsideCodeBlock
  rw [iibLoop_eq_countP c n 0 0]
  simp

/-! ## Matched fence pairs -/

theorem chunkPairs_mem : ∀ (l : List Nat) (oc : Nat × Nat),
    oc ∈ chunkPairs l → oc.1 ∈ l ∧ oc.2 ∈ l
  | [], oc => by simp [chunkPairs]
  | [a], oc => by simp [chunkPairs]
  | a :: b :: rest, oc => by
    intro h
    simp only [chunkPairs, List.mem_cons] at h ⊢
    rcases h with rfl | h2
    · simp
    · have := chunkPairs_mem rest oc h2
      tauto

theorem chunkPairs_between_odd : ∀ (l : List Nat) (n : Nat),
    List.Pairwise (fun a b => a + 3 ≤ b) l →
    ∀ oc ∈ chunkPairs l, oc.1 < n → n < oc.2 →
    l.countP (fun j => decide (j < n)) % 2 = 1
  | [], n => by simp [chunkPairs]
  | [a], n => by simp [chunkPairs]
  | a :: b :: rest, n => by
    intro hpw oc hmem h1 h2
    simp only [chunkPairs, List.mem_cons] at hmem
    obtain ⟨hab, hrest⟩ := List.pairwise_cons.mp hpw
    obtain ⟨hbr, hrest2⟩ := List.pairwise_cons.mp hrest
    rcases hmem with rfl | h3
    · have han : a < n := h1
      have hbn : ¬ b < n := by omega
      have hr0 : rest.countP (fun j => decide (j < n)) = 0 := by
        rw [List.countP_eq_zero]
        intro x hx
        have := hbr x hx
        simp only [decide_eq_true_eq]
        omega
      simp [List.countP_cons, han, hbn, hr0]
    · have hoc := chunkPairs_mem rest oc h3
      have hbo : b + 3 ≤ oc.1 := hbr oc.1 hoc.1
      have hab2 : a + 3 ≤ b := hab b (List.mem_cons_self b rest)
      have han : a < n := by omega
      have hbn : b < n := by omega
      have ih := chunkPairs_between_odd rest n hrest2 oc h3 h1 h2
      simp [List.countP_cons, han, hbn]
      omega

/-! ## Bounds and safety of the double-newline search -/

theorem flsLoop_cases (c : List Char) (ss : Nat) :
    flsLoop c ss ≤ c.length ∧
      (flsLoop c ss = c.length ∨ isIndexInsideCodeBlock c (flsLoop c ss) = false) := by
  refine flsLoop.induct c
    (fun ss => flsLoop c ss ≤ c.length ∧
      (flsLoop c ss = c.length ∨ isIndexInsideCodeBlock c (flsLoop c ss) = false))
    ?_ ?_ ?_ ?_ ss
  · intro ss hd
    rw [flsLoop_none c ss hd]
    exact ⟨le_refl _, Or.inl rfl⟩
  · intro ss d hd hin
    rw [flsLoop_found c ss d hd hin]
    have := isDnlAt_bound c d (lastIndexOfDnlFrom_isDnl c ss d hd)
    exact ⟨by omega, Or.inr hin⟩
  · intro ss hd hd2 hin
    have hin2 : isIndexInsideCodeBlock c 2 = true := by
      simpa using hin
    rw [flsLoop_zero c ss hd hin2]
    exact ⟨le_refl _, Or.inl rfl⟩
  · intro ss d hd hd2 hin ih
    have hin2 : isIndexInsideCodeBlock c (d + 1 + 2) = true := by
      simpa using hin
    rw [flsLoop_next c ss d hd hin2]
    exact ih

theorem findLastSafeSplitPoint_eq_flsLoop (content : List Char)
    (h : content.length ≠ 0) :
    findLastSafeSplitPoint content = ((flsLoop content (content.length - 1) : Nat) : Int) := by
  unfold findLastSafeSplitPoint
  rw [if_neg h]
  simp [findEnclosingCodeBlockStart_eq_neg_one]

/-- C10: for every input, `findLastSafeSplitPoint` returns an integer `n` with
`0 ≤ n ≤ content.length`, so the returned split point is always a valid slice
boundary of the buffered text, and it returns `0` on the empty string. -/
theorem findLastSafeSplitPoint_bounds (content : List Char) :
    0 ≤ findLastSafeSplitPoint content ∧
    findLastSafeSplitPoint content ≤ (content.length : Int) ∧
    findLastSafeSplitPoint ([] : List Char) = 0 := by
  refine ⟨?_, ?_, rfl⟩
  · by_cases h : content.length = 0
    · simp [findLastSafeSplitPoint, h]
    · rw [findLastSafeSplitPoint_eq_flsLoop content h]
      exact Int.natCast_nonneg _
  · by_cases h : content.length = 0
    · simp [findLastSafeSplitPoint, h]
    · rw [findLastSafeSplitPoint_eq_flsLoop content h]
      exact_mod_cast (flsLoop_cases content (content.length - 1)).1

/-- C3: for any text with an even number of (non-overlapping) fence
delimiters, the split point computed by `findLastSafeSplitPoint` is never
strictly between a fence-open delimiter and its matching fence-close
delimiter, where the k-th open delimiter matches the (k+1)-th occurrence. -/
theorem findLastSafeSplitPoint_not_inside_matched_fence (content : List Char)
    (hEven : Even (fenceList content 0).length)
    (oc : Nat × Nat) (hmem : oc ∈ chunkPairs (fenceList content 0)) :
    ¬((oc.1 : Int) < findLastSafeSplitPoint content ∧
      findLastSafeSplitPoint content < (oc.2 : Int)) := by
  rintro ⟨h1, h2⟩
  by_cases h0 : content.length = 0
  · obtain rfl : content = [] := List.length_eq_zero.mp h0
    rw [fenceList_none [] 0 (by decide)] at hmem
    simp [chunkPairs] at hmem
  · rw [findLastSafeSplitPoint_eq_flsLoop content h0] at h1 h2
    have h1n : oc.1 < flsLoop content (content.length - 1) := by exact_mod_cast h1
    have h2n : flsLoop content (content.length - 1) < oc.2 := by exact_mod_cast h2
    rcases (flsLoop_cases content (content.length - 1)).2 with hlen | hins
    · have hmem2 := (chunkPairs_mem _ oc hmem).2
      have := fenceList_bound content 0 oc.2 hmem2
      omega
    · have hodd := chunkPairs_between_odd (fenceList content 0)
        (flsLoop content (content.length - 1)) (fenceList_pairwise content 0) oc hmem h1n h2n
      have hcon := (isIndexInsideCodeBlock_iff content (flsLoop content (content.length - 1))).mpr hodd
      rw [hins] at hcon
      simp at hcon

/-- Witness for C3 at the concrete buffer `csFencePair`, whose fence
occurrences are the matched pair at positions 3 and 7. -/
theorem findLastSafeSplitPoint_not_inside_matched_fence_witness :
    ¬(((3 : Nat) : Int) < findLastSafeSplitPoint csFencePair ∧
      findLastSafeSplitPoint csFencePair < ((7 : Nat) : Int)) := by
  have hfl : fenceList csFencePair 0 = [3, 7] := by
    rw [fenceList_some csFencePair 0 3 (by decide),
        fenceList_some csFencePair 6 7 (by decide),
        fenceList_none csFencePair 10 (by decide)]
  exact findLastSafeSplitPoint_not_inside_matched_fence csFencePair
    (by rw [hfl]; decide) (3, 7) (by rw [hfl]; decide)

/-- C2 (divergence witness): on the buffer `csSplitBug`, whose single fence
delimiter starts at position 4 — so the end of the buffer lies inside an open
code fence and `findEnclosingCodeBlockStart` is documented to return 4 — the
code returns `-1` from `findEnclosingCodeBlockStart`, and
`findLastSafeSplitPoint` returns 3 (the point after the double newline), not
the start of the open fence. -/
theorem findLastSafeSplitPoint_open_fence_bug :
    fenceList csSplitBug 0 = [4] ∧
    isFenceAt csSplitBug 4 = true ∧
    findEnclosingCodeBlockStart csSplitBug csSplitBug.length = -1 ∧
    findLastSafeSplitPoint csSplitBug = 3 := by
  have hfl : fenceList csSplitBug 0 = [4] := by
    rw [fenceList_some csSplitBug 0 4 (by decide), fenceList_none csSplitBug 7 (by decide)]
  have hin : isIndexInsideCodeBlock csSplitBug 3 = false := by
    unfold isIndexInsideCodeBlock
    rw [iibLoop_stop csSplitBug 3 0 0 4 (by decide) (by decide)]
    rfl
  refine ⟨hfl, by decide, findEnclosingCodeBlockStart_eq_neg_one csSplitBug csSplitBug.length, ?_⟩
  rw [findLastSafeSplitPoint_eq_flsLoop csSplitBug (by decide)]
  rw [show csSplitBug.length - 1 = 7 from by decide]
  rw [flsLoop_found csSplitBug 7 1 (by decide) hin]
  rfl

/-! ## Compaction (C1, C5) -/

theorem jsSliceLast_eq_drop (l : List Message) (k : Nat) (h : k ≠ 0) :
    jsSliceLast l k = l.drop (l.length - k) := by
  unfold jsSliceLast
  rw [if_neg h]

theorem compact_ok (messages : List Message) (keepLast : Nat) (s : String) (now : Int)
    (hl : messages.length > keepLast) :
    compact messages keepLast (Except.ok s) now =
      ({ role := Role.assistant, content := s, timestamp := now, provider := none }
         :: jsSliceLast messages keepLast,
       { compacted := true, removed := (jsSliceInit messages keepLast).length, error := none }) := by
  unfold compact
  rw [if_pos hl]

theorem compact_error (messages : List Message) (keepLast : Nat) (e : String) (now : Int)
    (hl : messages.length > keepLast) :
    compact messages keepLast (Except.error e) now =
      (messages, { compacted := false, removed := 0, error := some e }) := by
  unfold compact
  rw [if_pos hl]

/-- C1 (as amended): for every message list of length `L > keepN` with
`keepN ≥ 1`, `compact keepN` either (a) replaces the list with exactly
`keepN + 1` messages — one synthetic summary followed by the last `keepN`
original messages in order — or (b) leaves the list unchanged and reports the
error; no other outcome is possible. -/
theorem compact_safety (messages : List Message) (keepLast : Nat)
    (summaryResult : Except String String) (now : Int)
    (hk : 1 ≤ keepLast) (hl : keepLast < messages.length) :
    (∃ s, summaryResult = Except.ok s ∧
      (compact messages keepLast summaryResult now).1 =
        { role := Role.assistant, content := s, timestamp := now, provider := none }
          :: messages.drop (messages.length - keepLast) ∧
      (compact messages keepLast summaryResult now).1.length = keepLast + 1 ∧
      (compact messages keepLast summaryResult now).2.compacted = true) ∨
    (∃ e, summaryResult = Except.error e ∧
      (compact messages keepLast summaryResult now).1 = messages ∧
      (compact messages keepLast summaryResult now).2.compacted = false ∧
      (compact messages keepLast summaryResult now).2.error = some e) := by
  cases summaryResult with
  | ok s =>
    left
    refine ⟨s, rfl, ?_, ?_, ?_⟩
    · rw [compact_ok messages keepLast s now hl]
      rw [jsSliceLast_eq_drop messages keepLast (by omega)]
    · rw [compact_ok messages keepLast s now hl]
      rw [jsSliceLast_eq_drop messages keepLast (by omega)]
      simp only [List.length_cons, List.length_drop]
      omega
    · rw [compact_ok messages keepLast s now hl]
  | error e =>
    right
    refine ⟨e, rfl, ?_, ?_, ?_⟩ <;> rw [compact_error messages keepLast e now hl]

/-- C1 counterexample: at `keepN = 0` (allowed by the claim, since it only
requires `L > keepN`), a successful compaction of a one-message list yields
two messages — the summary plus the entire original list, because JS
`slice(-0)` is `slice(0)` — with no error; this is neither outcome (a), which
would be exactly one message, nor outcome (b), which would leave the list
unchanged with an error. -/
theorem compact_keep_zero_counterexample :
    (compact [msgU] 0 (Except.ok "S") 1).1.length = 2 ∧
    (compact [msgU] 0 (Except.ok "S") 1).1 ≠ [msgU] ∧
    (compact [msgU] 0 (Except.ok "S") 1).2.error = none ∧
    (compact [msgU] 0 (Except.ok "S") 1).2.compacted = true ∧
    (compact [msgU] 0 (Except.ok "S") 1).2.removed = 0 := by
  decide

/-- Witness for the amended C1 at a concrete two-message list with
`keepN = 1` and a successful summary. -/
theorem compact_safety_witness :
    (compact [msgU, msgU2] 1 (Except.ok "S") 5).1 =
      [{ role := Role.assistant, content := "S", timestamp := 5, provider := none }, msgU2] ∧
    (compact [msgU, msgU2] 1 (Except.ok "S") 5).1.length = 2 := by
  have h := compact_safety [msgU, msgU2] 1 (Except.ok "S") 5 (by decide) (by decide)
  rcases h with ⟨s, hs, hlist, hlen, _⟩ | ⟨e, he, _⟩
  · have hs2 : "S" = s := by injection hs
    subst hs2
    constructor
    · rw [hlist]
      decide
    · exact hlen
  · exact absurd he (by simp)

theorem addMessage_below (messages : List Message) (autoC : Bool) (role : Role)
    (content : String) (now : Int) (provider : Option Provider)
    (sr : Except String String) (sNow : Int)
    (h : messages.length + 1 ≤ AUTO_COMPACT_THRESHOLD) :
    addMessage messages autoC role content now provider sr sNow =
      (messages ++ [{ role := role, content := content, timestamp := now, provider := provider }],
       { autoCompacted := false, removed := 0, error := none }) := by
  unfold addMessage
  rw [if_neg]
  intro hc
  simp only [Bool.and_eq_true, decide_eq_true_eq, List.length_append, List.length_cons,
    List.length_nil] at hc
  omega

theorem addMessage_fst_at_threshold (messages : List Message) (role : Role)
    (content : String) (now : Int) (provider : Option Provider)
    (sr : Except String String) (sNow : Int)
    (h : messages.length + 1 > AUTO_COMPACT_THRESHOLD) :
    (addMessage messages true role content now provider sr sNow).1 =
      (compact
        (messages ++ [{ role := role, content := content, timestamp := now, provider := provider }])
        AUTO_COMPACT_KEEP sr sNow).1 := by
  unfold addMessage
  rw [if_pos]
  simp only [Bool.true_and, decide_eq_true_eq, List.length_append, List.length_cons,
    List.length_nil]
  omega

theorem addMessagesSeq_append (messages : List Message) (l1 l2 : List Message)
    (sr : Except String String) (sNow : Int) :
    addMessagesSeq messages (l1 ++ l2) sr sNow =
      addMessagesSeq (addMessagesSeq messages l1 sr sNow) l2 sr sNow := by
  unfold addMessagesSeq
  rw [List.foldl_append]

theorem addMessagesSeq_below_threshold : ∀ (inputs messages : List Message)
    (sr : Except String String) (sNow : Int),
    messages.length + inputs.length ≤ AUTO_COMPACT_THRESHOLD →
    addMessagesSeq messages inputs sr sNow = messages ++ inputs
  | [], messages, sr, sNow => by
    intro h
    simp [addMessagesSeq]
  | m :: t, messages, sr, sNow => by
    intro h
    have hstep : addMessagesSeq messages (m :: t) sr sNow =
        addMessagesSeq
          ((addMessage messages true m.role m.content m.timestamp m.provider sr sNow).1)
          t sr sNow := by
      simp [addMessagesSeq]
    rw [hstep, addMessage_below messages true m.role m.content m.timestamp m.provider sr sNow
      (by simp at h ⊢; omega)]
    have heta : Message.mk m.role m.content m.timestamp m.provider = m := rfl
    rw [heta]
    rw [addMessagesSeq_below_threshold t (messages ++ [m]) sr sNow (by simp at h ⊢; omega)]
    simp

/-- C5: appending 51 messages one at a time through `addMessage` to a fresh
empty session, with every summarizer delegation resolving to `SUMMARY`, yields
exactly 21 messages: one synthetic summary with content `SUMMARY` followed by
the original messages 32 through 51 in order. -/
theorem addMessage_autocompact_scenario (inputs : List Message) (sNow : Int)
    (h51 : inputs.length = 51) :
    addMessagesSeq [] inputs (Except.ok "SUMMARY") sNow =
      { role := Role.assistant, content := "SUMMARY", timestamp := sNow, provider := none }
        :: inputs.drop 31 ∧
    (addMessagesSeq [] inputs (Except.ok "SUMMARY") sNow).length = 21 ∧
    (inputs.drop 31).length = 20 := by
  have hsplit : inputs.take 50 ++ inputs.drop 50 = inputs := List.take_append_drop 50 inputs
  have hlen50 : (inputs.take 50).length = 50 := by
    rw [List.length_take]
    omega
  have hlen1 : (inputs.drop 50).length = 1 := by
    rw [List.length_drop]
    omega
  obtain ⟨m51, hm⟩ := List.length_eq_one.mp hlen1
  have hall : inputs.take 50 ++ [m51] = inputs := by
    rw [← hm]
    exact hsplit
  have hmain : addMessagesSeq [] inputs (Except.ok "SUMMARY") sNow =
      { role := Role.assistant, content := "SUMMARY", timestamp := sNow, provider := none }
        :: inputs.drop 31 := by
    conv =>
      lhs
      rw [← hsplit]
    rw [addMessagesSeq_append [] (inputs.take 50) (inputs.drop 50) (Except.ok "SUMMARY") sNow]
    rw [addMessagesSeq_below_threshold (inputs.take 50) [] (Except.ok "SUMMARY") sNow
      (by simp [hlen50, AUTO_COMPACT_THRESHOLD])]
    rw [List.nil_append, hm]
    have hstep : addMessagesSeq (inputs.take 50) [m51] (Except.ok "SUMMARY") sNow =
        (addMessage (inputs.take 50) true m51.role m51.content m51.timestamp m51.provider
          (Except.ok "SUMMARY") sNow).1 := by
      simp [addMessagesSeq]
    rw [hstep]
    rw [addMessage_fst_at_threshold (inputs.take 50) m51.role m51.content m51.timestamp
      m51.provider (Except.ok "SUMMARY") sNow (by rw [hlen50]; simp [AUTO_COMPACT_THRESHOLD])]
    have heta : Message.mk m51.role m51.content m51.timestamp m51.provider = m51 := rfl
    rw [heta, hall]
    rw [compact_ok inputs AUTO_COMPACT_KEEP "SUMMARY" sNow
      (by rw [h51]; simp [AUTO_COMPACT_KEEP])]
    rw [jsSliceLast_eq_drop inputs AUTO_COMPACT_KEEP (by simp [AUTO_COMPACT_KEEP])]
    rw [h51]
    rfl
  refine ⟨hmain, ?_, ?_⟩
  · rw [hmain]
    simp only [List.length_cons, List.length_drop, h51]
  · simp only [List.length_drop, h51]

/-- Witness for C5 at the concrete 51-message list `inputs51`. -/
theorem addMessage_autocompact_scenario_witness :
    addMessagesSeq [] inputs51 (Except.ok "SUMMARY") 99 =
      { role := Role.assistant, content := "SUMMARY", timestamp := 99, provider := none }
        :: inputs51.drop 31 ∧
    (addMessagesSeq [] inputs51 (Except.ok "SUMMARY") 99).length = 21 := by
  have h := addMessage_autocompact_scenario inputs51 99 (by decide)
  exact ⟨h.1, h.2.1⟩

/-! ## In-place update of the last assistant message (C9) -/

/-- C9: `updateLastAssistantMessage` mutates only the content of the single
most-recent message, and only when that message has role assistant and (when a
provider is given) a matching provider, returning `true`; in every other case
it returns `false` and leaves every message unchanged; no message other than
the most recent is ever modified. -/
theorem updateLastAssistantMessage_frame (messages : List Message) (content : String)
    (provider : Option Provider) :
    (updateLastAssistantMessage messages content provider).1.dropLast = messages.dropLast ∧
    (updateLastAssistantMessage messages content provider).1.length = messages.length ∧
    ((updateLastAssistantMessage messages content provider).2 = false →
      (updateLastAssistantMessage messages content provider).1 = messages) ∧
    ((updateLastAssistantMessage messages content provider).2 = true ↔
      ∃ m, messages.getLast? = some m ∧ m.role = Role.assistant ∧
        (provider = none ∨ m.provider = provider)) ∧
    (∀ m, messages.getLast? = some m →
      (updateLastAssistantMessage messages content provider).1.getLast? =
        some (if (updateLastAssistantMessage messages content provider).2 = true
              then { m with content := content } else m)) := by
  cases hL : messages.getLast? with
  | none =>
    have hnil : messages = [] := by
      cases messages with
      | nil => rfl
      | cons a t => simp at hL
    subst hnil
    refine ⟨rfl, rfl, fun _ => rfl, ?_, ?_⟩
    · simp [updateLastAssistantMessage]
    · intro m hm
      simp at hm
  | some last =>
    have hne : messages ≠ [] := by
      intro h
      subst h
      simp at hL
    have hlen : ¬ messages.length = 0 := by
      intro h
      exact hne (List.length_eq_zero.mp h)
    have hpos : 0 < messages.length := by omega
    unfold updateLastAssistantMessage
    rw [if_neg hlen]
    simp only [hL]
    by_cases hC : last.role = Role.assistant ∧ (provider = none ∨ last.provider = provider)
    · rw [if_pos hC]
      refine ⟨?_, ?_, ?_, ?_, ?_⟩
      · simp
      · simp only [List.length_append, List.length_dropLast, List.length_cons,
          List.length_nil]
        omega
      · intro hfalse
        exact absurd hfalse (by simp)
      · constructor
        · intro _
          exact ⟨last, rfl, hC.1, hC.2⟩
        · intro _
          rfl
      · intro m hm
        obtain rfl : last = m := by injection hm
        simp
    · rw [if_neg hC]
      refine ⟨rfl, rfl, fun _ => rfl, ?_, ?_⟩
      · constructor
        · intro hfalse
          exact absurd hfalse (by simp)
        · rintro ⟨m, hm, h1, h2⟩
          obtain rfl : last = m := by injection hm
          exact absurd ⟨h1, h2⟩ hC
      · intro m hm
        obtain rfl : last = m := by injection hm
        simpa using hL

/-- Witness for C9 at a concrete one-assistant-message list. -/
theorem updateLastAssistantMessage_frame_witness :
    (updateLastAssistantMessage [msgA] "new" none).1.dropLast = ([msgA] : List Message).dropLast ∧
    (updateLastAssistantMessage [msgA] "new" none).2 = true := by
  have h := updateLastAssistantMessage_frame [msgA] "new" none
  exact ⟨h.1, (h.2.2.2.1).mpr ⟨msgA, by decide, by decide, Or.inl rfl⟩⟩

/-! ## Session metadata invariant (C8) -/

/-- C8: after every `saveSession(name, context)`, the `messageCount` stored in
that session's metadata — both in the updated index and in the persisted
session file — equals the length of `context.messages`, and the file's
metadata record is exactly the index entry. -/
theorem saveSession_messageCount_invariant (index : SessionIndex) (sessionName : String)
    (context : ConversationContext) (description : Option String) (now : Int) :
    (saveSession index sessionName context description now).1.sessions sessionName =
      some (saveSession index sessionName context description now).2.metadata ∧
    (saveSession index sessionName context description now).2.metadata.messageCount =
      context.messages.length ∧
    (saveSession index sessionName context description now).2.context = context := by
  unfold saveSession
  refine ⟨?_, ?_, rfl⟩
  · simp
  · cases h : index.sessions sessionName with
    | none => simp [h]
    | some m => simp [h]

/-! ## Throttled-save coalescing (C4) -/

theorem getLast?_cons_eq_getD {α : Type} (a : α) (l : List α) :
    (a :: l).getLast? = some ((l.getLast?).getD a) := by
  induction l generalizing a with
  | nil => rfl
  | cons b t ih =>
    rw [List.getLast?_cons_cons, ih b]
    rfl

theorem stepThrottle_request_noop {σ : Type} (s : ThrottleState σ) (t : Int) (c : σ)
    (hp : s.pendingSave = true) (hlt : t - s.lastSaveTime < saveThrottleMs) :
    stepThrottle s (ThrottleEvent.request t c) = { s with current := c } := by
  show throttledSave { s with current := c } t = { s with current := c }
  unfold throttledSave
  rw [if_neg, if_neg]
  · show ¬ (s.pendingSave = false)
    rw [hp]
    simp
  · show ¬ (t - s.lastSaveTime ≥ saveThrottleMs)
    omega

theorem runThrottle_pending_noop {σ : Type} : ∀ (reqs : List (Int × σ)) (s : ThrottleState σ),
    s.pendingSave = true →
    (∀ r ∈ reqs, r.1 - s.lastSaveTime < saveThrottleMs) →
    runThrottle s (reqs.map (fun r => ThrottleEvent.request r.1 r.2)) =
      { s with current := ((reqs.map Prod.snd).getLast?).getD s.current }
  | [], s => by
    intro hp hb
    rfl
  | r :: rs, s => by
    intro hp hb
    have hstep : runThrottle s ((r :: rs).map (fun r => ThrottleEvent.request r.1 r.2)) =
        runThrottle (stepThrottle s (ThrottleEvent.request r.1 r.2))
          (rs.map (fun r => ThrottleEvent.request r.1 r.2)) := rfl
    rw [hstep, stepThrottle_request_noop s r.1 r.2 hp (hb r (List.mem_cons_self r rs))]
    rw [runThrottle_pending_noop rs { s with current := r.2 } hp
      (fun x hx => hb x (List.mem_cons_of_mem r hx))]
    rw [List.map_cons, getLast?_cons_eq_getD]
    rfl

/-- C4: for every nonempty burst of save requests all arriving, in time order,
sooner than the throttle interval after the last physical write, running the
burst followed by the scheduled timer firing performs exactly one physical
write — the single deferred one — and persists the context of the last
request, never an earlier one. -/
theorem throttledSave_coalesces_burst (σ : Type) (L : Int) (c0 p0 : σ)
    (reqs : List (Int × σ)) (hne : reqs ≠ [])
    (hwin : ∀ r ∈ reqs, L ≤ r.1 ∧ r.1 < L + saveThrottleMs)
    (hord : List.Chain' (fun a b => a.1 ≤ b.1) reqs) :
    (runThrottle (initialThrottleState σ L c0 p0)
      (reqs.map (fun r => ThrottleEvent.request r.1 r.2) ++
        [ThrottleEvent.timerFire (L + saveThrottleMs)])).writes = 1 ∧
    (runThrottle (initialThrottleState σ L c0 p0)
      (reqs.map (fun r => ThrottleEvent.request r.1 r.2) ++
        [ThrottleEvent.timerFire (L + saveThrottleMs)])).deferredWrites = 1 ∧
    (runThrottle (initialThrottleState σ L c0 p0)
      (reqs.map (fun r => ThrottleEvent.request r.1 r.2) ++
        [ThrottleEvent.timerFire (L + saveThrottleMs)])).pendingSave = false ∧
    ((reqs.map Prod.snd).getLast?).isSome = true ∧
    (∀ c, (reqs.map Prod.snd).getLast? = some c →
      (runThrottle (initialThrottleState σ L c0 p0)
        (reqs.map (fun r => ThrottleEvent.request r.1 r.2) ++
          [ThrottleEvent.timerFire (L + saveThrottleMs)])).persisted = c) := by
  cases reqs with
  | nil => exact absurd rfl hne
  | cons r1 rest =>
    have hsplit : runThrottle (initialThrottleState σ L c0 p0)
        ((r1 :: rest).map (fun r => ThrottleEvent.request r.1 r.2) ++
          [ThrottleEvent.timerFire (L + saveThrottleMs)]) =
        runThrottle
          (runThrottle (initialThrottleState σ L c0 p0)
            ((r1 :: rest).map (fun r => ThrottleEvent.request r.1 r.2)))
          [ThrottleEvent.timerFire (L + saveThrottleMs)] := by
      unfold runThrottle
      rw [List.foldl_append]
    have hw1 := hwin r1 (List.mem_cons_self r1 rest)
    have hfirst : stepThrottle (initialThrottleState σ L c0 p0)
        (ThrottleEvent.request r1.1 r1.2) =
        { initialThrottleState σ L c0 p0 with
            current := r1.2, pendingSave := true,
            timerAt := some (r1.1 + (saveThrottleMs - (r1.1 - L))) } := by
      show throttledSave { initialThrottleState σ L c0 p0 with current := r1.2 } r1.1 = _
      unfold throttledSave
      rw [if_neg, if_pos]
      · rfl
      · rfl
      · show ¬ (r1.1 - L ≥ saveThrottleMs)
        omega
    have hburst : runThrottle (initialThrottleState σ L c0 p0)
        ((r1 :: rest).map (fun r => ThrottleEvent.request r.1 r.2)) =
        { initialThrottleState σ L c0 p0 with
            current := ((rest.map Prod.snd).getLast?).getD r1.2, pendingSave := true,
            timerAt := some (r1.1 + (saveThrottleMs - (r1.1 - L))) } := by
      have hcons : runThrottle (initialThrottleState σ L c0 p0)
          ((r1 :: rest).map (fun r => ThrottleEvent.request r.1 r.2)) =
          runThrottle (stepThrottle (initialThrottleState σ L c0 p0)
            (ThrottleEvent.request r1.1 r1.2))
            (rest.map (fun r => ThrottleEvent.request r.1 r.2)) := rfl
      rw [hcons, hfirst]
      rw [runThrottle_pending_noop rest _ rfl
        (fun x hx => by
          have := (hwin x (List.mem_cons_of_mem r1 hx)).2
          show x.1 - L < saveThrottleMs
          omega)]
    rw [hsplit, hburst]
    have hfire : runThrottle
        ({ initialThrottleState σ L c0 p0 with
            current := ((rest.map Prod.snd).getLast?).getD r1.2, pendingSave := true,
            timerAt := some (r1.1 + (saveThrottleMs - (r1.1 - L))) })
        [ThrottleEvent.timerFire (L + saveThrottleMs)] =
        { initialThrottleState σ L c0 p0 with
            current := ((rest.map Prod.snd).getLast?).getD r1.2,
            persisted := ((rest.map Prod.snd).getLast?).getD r1.2,
            pendingSave := false, timerAt := none,
            lastSaveTime := L + saveThrottleMs,
            writes := 1, deferredWrites := 1 } := by
      rfl
    rw [hfire]
    refine ⟨rfl, rfl, rfl, ?_, ?_⟩
    · rw [List.map_cons, getLast?_cons_eq_getD]
      rfl
    · intro c hc
      rw [List.map_cons, getLast?_cons_eq_getD] at hc
      have : (rest.map Prod.snd).getLast?.getD r1.2 = c := by injection hc
      rw [← this]

/-! ## Partial results on mid-stream disconnection (C6) -/

/-- C6: when the SSE read loop is interrupted by a transport-level
disconnection — an error whose message matches the termination signatures —
the execution resolves with a successful result carrying the accumulated text
whenever any text was produced, and with a failure result exactly when zero
text was produced. -/
theorem streamResponse_partial_on_disconnect (chunks : List ParsedChunk) (message : String)
    (hterm : isTerminationMessage message = true) :
    ((runStreamLoop chunks).fullResponse.length > 0 →
      streamResponseStep chunks (StreamEnding.readError message) =
        StreamResult.result
          { success := true, response := some (runStreamLoop chunks).fullResponse,
            error := none, tokenLimitReached := false }) ∧
    ((runStreamLoop chunks).fullResponse.length = 0 →
      streamResponseStep chunks (StreamEnding.readError message) =
        StreamResult.result
          { success := false, response := none,
            error := some ("DeepSeek API connection terminated: " ++ message ++
                           ". See detailed error output above."),
            tokenLimitReached := false }) := by
  constructor
  · intro hlen
    simp only [streamResponseStep]
    rw [if_pos hterm, if_pos hlen]
  · intro hlen
    simp only [streamResponseStep]
    rw [if_pos hterm, if_neg (by omega)]

/-- Witness for C6: a one-chunk stream with text `Hello` interrupted by a
matching termination error resolves successfully with the partial text. -/
theorem streamResponse_partial_on_disconnect_witness :
    streamResponseStep chunksHello (StreamEnding.readError "other side closed") =
      StreamResult.result
        { success := true, response := some "Hello", error := none,
          tokenLimitReached := false } := by
  have h := (streamResponse_partial_on_disconnect chunksHello "other side closed"
    (by decide)).1 (by decide)
  have h2 : (runStreamLoop chunksHello).fullResponse = "Hello" := by decide
  rw [h2] at h
  exact h

/-! ## Tool-call delta reconstruction (C7) -/

theorem processParsedChunk_deltas_only (s : StreamLoopState) (g : List ToolCallDelta) :
    processParsedChunk s { content := none, toolCallDeltas := g, finishReason := none } =
      g.foldl processToolCallDelta s := by
  cases g with
  | nil => rfl
  | cons d t =>
    simp [processParsedChunk, jsTruthy]

theorem runStreamLoop_delta_groups (groups : List (List ToolCallDelta)) :
    ∀ (s : StreamLoopState),
    (groups.map (fun g =>
        ({ content := none, toolCallDeltas := g, finishReason := none } : ParsedChunk))).foldl
      processParsedChunk s =
      (groups.flatten).foldl processToolCallDelta s := by
  induction groups with
  | nil => intro s; rfl
  | cons g gs ih =>
    intro s
    rw [List.map_cons, List.foldl_cons, processParsedChunk_deltas_only s g]
    rw [List.flatten_cons, List.foldl_append]
    exact ih (g.foldl processToolCallDelta s)

theorem foldl_same_index (i : Int) : ∀ (deltas : List ToolCallDelta)
    (s : StreamLoopState) (c : PendingToolCall),
    s.currentToolIndex = i → s.currentToolCall = some c →
    (∀ d ∈ deltas, d.index = i) →
    deltas.foldl processToolCallDelta s =
      { s with
        currentToolCall := some (deltas.foldl updatePendingToolCall c) }
  | [], s, c => by
    intro hidx hcur hall
    rw [List.foldl_nil, List.foldl_nil, ← hcur]
  | d :: rest, s, c => by
    intro hidx hcur hall
    rw [List.foldl_cons, List.foldl_cons]
    have hstep : processToolCallDelta s d =
        { s with currentToolCall := some (updatePendingToolCall c d) } := by
      unfold processToolCallDelta
      rw [if_neg, hcur]
      intro hcon
      exact hcon (by rw [hidx, hall d (List.mem_cons_self d rest)])
    rw [hstep]
    exact foldl_same_index i rest _ (updatePendingToolCall c d) hidx rfl
      (fun x hx => hall x (List.mem_cons_of_mem d hx))

theorem jsTruthy_false_getD (o : Option String) (h : jsTruthy o = false) :
    o.getD "" = "" := by
  cases o with
  | none => rfl
  | some s =>
    simp [jsTruthy] at h
    rw [h]
    rfl

theorem updatePendingToolCall_arguments (c : PendingToolCall) (d : ToolCallDelta) :
    (updatePendingToolCall c d).arguments = c.arguments ++ d.fnArguments.getD "" := by
  unfold updatePendingToolCall
  by_cases h3 : jsTruthy d.fnArguments
  · rw [if_pos h3]
    by_cases h1 : jsTruthy d.id <;> by_cases h2 : jsTruthy d.fnName <;> simp [h1, h2]
  · rw [if_neg h3, jsTruthy_false_getD d.fnArguments (by simpa using h3),
      String.append_empty]
    by_cases h1 : jsTruthy d.id <;> by_cases h2 : jsTruthy d.fnName <;> simp [h1, h2]

theorem foldl_update_id : ∀ (rest : List ToolCallDelta) (c : PendingToolCall),
    (rest.foldl updatePendingToolCall c).id =
      rest.foldl (fun acc d2 => if jsTruthy d2.id then d2.id else acc) c.id
  | [], c => rfl
  | d :: rest, c => by
    rw [List.foldl_cons, List.foldl_cons, foldl_update_id rest _]
    have hid : (updatePendingToolCall c d).id = if jsTruthy d.id then d.id else c.id := by
      unfold updatePendingToolCall
      by_cases h1 : jsTruthy d.id <;> by_cases h2 : jsTruthy d.fnName <;>
        by_cases h3 : jsTruthy d.fnArguments <;> simp [h1, h2, h3]
    rw [hid]

theorem foldl_update_name : ∀ (rest : List ToolCallDelta) (c : PendingToolCall),
    (rest.foldl updatePendingToolCall c).name =
      rest.foldl (fun acc d2 => if jsTruthy d2.fnName then d2.fnName else acc) c.name
  | [], c => rfl
  | d :: rest, c => by
    rw [List.foldl_cons, List.foldl_cons, foldl_update_name rest _]
    have hname : (updatePendingToolCall c d).name =
        if jsTruthy d.fnName then d.fnName else c.name := by
      unfold updatePendingToolCall
      by_cases h1 : jsTruthy d.id <;> by_cases h2 : jsTruthy d.fnName <;>
        by_cases h3 : jsTruthy d.fnArguments <;> simp [h1, h2, h3]
    rw [hname]

theorem foldl_update_arguments : ∀ (rest : List ToolCallDelta) (c : PendingToolCall),
    (rest.foldl updatePendingToolCall c).arguments = c.arguments ++ accArgs rest
  | [], c => by
    rw [List.foldl_nil]
    unfold accArgs
    rw [String.append_empty]
  | d :: rest, c => by
    rw [List.foldl_cons, foldl_update_arguments rest _]
    rw [updatePendingToolCall_arguments c d, String.append_assoc]
    rfl

/-- C7: for every sequence of tool-call deltas at a single nonnegative index,
split into chunk-events in any way and followed by a `tool_calls`
turn-completion signal, the accumulator reconstructs exactly one call whose id
and name are the accumulated truthy arrivals and whose arguments string is the
concatenation of the argument fragments in arrival order — independent of the
chunk boundary placement. -/
theorem toolCall_delta_reconstruction (groups : List (List ToolCallDelta)) (i : Int)
    (hi : 0 ≤ i)
    (hidx : ∀ d ∈ groups.flatten, d.index = i)
    (hne : groups.flatten ≠ [])
    (hid : jsTruthy (accId groups.flatten) = true)
    (hname : jsTruthy (accName groups.flatten) = true) :
    (runStreamLoop (groups.map (fun g =>
        ({ content := none, toolCallDeltas := g, finishReason := none } : ParsedChunk)) ++
      [({ content := none, toolCallDeltas := [], finishReason := some "tool_calls" } :
        ParsedChunk)])).toolCalls =
      [{ id := (accId groups.flatten).getD "", name := (accName groups.flatten).getD "",
         arguments := accArgs groups.flatten }] := by
  unfold runStreamLoop
  rw [List.foldl_append, runStreamLoop_delta_groups groups initialStreamLoopState]
  cases hj : groups.flatten with
  | nil => exact absurd hj hne
  | cons d0 rest =>
    rw [hj] at hidx hid hname
    simp only [List.foldl_cons, List.foldl_nil]
    have hidx0 : d0.index = i := hidx d0 (List.mem_cons_self d0 rest)
    have hfirst : processToolCallDelta initialStreamLoopState d0 =
        { initialStreamLoopState with
            currentToolIndex := d0.index
            currentToolCall := some { id := d0.id, name := d0.fnName, arguments := d0.fnArguments.getD "" } } := by
      unfold processToolCallDelta
      rw [if_pos]
      · rfl
      · show d0.index ≠ initialStreamLoopState.currentToolIndex
        rw [hidx0]
        show i ≠ -1
        omega
    rw [hfirst]
    rw [foldl_same_index i rest _
      { id := d0.id, name := d0.fnName, arguments := d0.fnArguments.getD "" }
      (by show d0.index = i; exact hidx0) rfl
      (fun x hx => hidx x (List.mem_cons_of_mem d0 hx))]
    have hfin : ∀ (s : StreamLoopState),
        processParsedChunk s
          { content := none, toolCallDeltas := [], finishReason := some "tool_calls" } =
        savePendingToolCall s := by
      intro s
      rfl
    rw [hfin]
    have hidEq : ((rest.foldl updatePendingToolCall
        { id := d0.id, name := d0.fnName, arguments := d0.fnArguments.getD "" }).id) =
        accId (d0 :: rest) := by
      rw [foldl_update_id rest _]
      rfl
    have hnameEq : ((rest.foldl updatePendingToolCall
        { id := d0.id, name := d0.fnName, arguments := d0.fnArguments.getD "" }).name) =
        accName (d0 :: rest) := by
      rw [foldl_update_name rest _]
      rfl
    have hargEq : ((rest.foldl updatePendingToolCall
        { id := d0.id, name := d0.fnName, arguments := d0.fnArguments.getD "" }).arguments) =
        accArgs (d0 :: rest) := by
      rw [foldl_update_arguments rest _]
      rfl
    unfold savePendingToolCall
    simp only [hidEq, hnameEq, hargEq, hid, hname, Bool.and_self, if_true]
    rfl

/-- Witness for C4: three requests at times 100, 200, 300 within the window
after a write at time 0, followed by the timer firing at 500, persist the
context of the third request through exactly one deferred write. -/
theorem throttledSave_coalesces_burst_witness :
    (runThrottle (initialThrottleState Nat 0 5 7)
      (([((100 : Int), (10 : Nat)), (200, 20), (300, 30)]).map
        (fun r => ThrottleEvent.request r.1 r.2) ++
        [ThrottleEvent.timerFire ((0 : Int) + saveThrottleMs)])).writes = 1 ∧
    (runThrottle (initialThrottleState Nat 0 5 7)
      (([((100 : Int), (10 : Nat)), (200, 20), (300, 30)]).map
        (fun r => ThrottleEvent.request r.1 r.2) ++
        [ThrottleEvent.timerFire ((0 : Int) + saveThrottleMs)])).deferredWrites = 1 ∧
    (runThrottle (initialThrottleState Nat 0 5 7)
      (([((100 : Int), (10 : Nat)), (200, 20), (300, 30)]).map
        (fun r => ThrottleEvent.request r.1 r.2) ++
        [ThrottleEvent.timerFire ((0 : Int) + saveThrottleMs)])).persisted = 30 := by
  have h := throttledSave_coalesces_burst Nat 0 5 7 [(100, 10), (200, 20), (300, 30)]
    (by decide) (by decide) (by norm_num [List.chain'_cons])
  exact ⟨h.1, h.2.1, h.2.2.2.2 30 (by decide)⟩

/-- Witness for C7: feeding the two argument fragments at the same index in
two separate chunks, then the completion signal, reconstructs exactly one call
whose arguments string is the full JSON text. -/
theorem toolCall_delta_reconstruction_witness :
    (runStreamLoop (groupsAB.map (fun g =>
        ({ content := none, toolCallDeltas := g, finishReason := none } : ParsedChunk)) ++
      [({ content := none, toolCallDeltas := [], finishReason := some "tool_calls" } :
        ParsedChunk)])).toolCalls =
      [{ id := "call_1", name := "get", arguments := "\x7b\"a\":1\x7d" }] := by
  have h := toolCall_delta_reconstruction groupsAB 0 (by decide) (by decide) (by decide)
    (by decide) (by decide)
  exact h.trans (by decide)
